import Mathlib

/-!
# Verification of GiNaC's Clifford-algebra and tensor rewriting core

A shallow embedding in Lean 4 of the Clifford/Dirac-gamma normalizer,
contraction rules and trace engine of `clifford.cpp`, and of the special
tensor evaluation/contraction rules of `tensor.cpp`.

The index algebra (`idx.cpp`), the `ncmul` internals and the utility
`permutation_sign` are external collaborators of this core (spec section 6);
where a definition is taken from the spec's description of a collaborator
rather than from a source file, its doc comment says so.
-/

namespace GiNaC

/-! ## Index algebra (collaborator, modelled from the spec) -/

/-- Modelled from the spec: the identity of an index is "symbolic name or
concrete non-negative integer" (section 3). -/
inductive IdxId
  | sym (n : ℕ)
  | num (v : ℕ)
deriving DecidableEq

/-- Modelled from the spec: a dimension is "symbolic or concrete" (section 3). -/
inductive Dimn
  | sym (n : ℕ)
  | num (v : ℕ)
deriving DecidableEq

/-- Modelled from the spec: an index has an identity, a variance flag and a
dimension (section 3).  This is GiNaC's `varidx` as the core consumes it. -/
structure Varidx where
  id : IdxId
  covariant : Bool
  dim : Dimn
deriving DecidableEq

instance : Inhabited Varidx := ⟨⟨IdxId.sym 0, false, Dimn.sym 0⟩⟩

/-- Modelled from the spec: an index is symbolic when its identity is a
symbolic name rather than a concrete integer. -/
def Varidx.symbolic : Varidx → Bool
  | ⟨IdxId.sym _, _, _⟩ => true
  | _ => false

/-- Modelled from the spec: the concrete integer value of a numeric index. -/
def Varidx.value : Varidx → Option ℕ
  | ⟨IdxId.num v, _, _⟩ => some v
  | _ => none

/-- Modelled from the spec: `minimal_dim(a,b)` gives the minimal comparable
dimension and "fails when dimensions are incomparable" (section 6): equal
dimensions are comparable, two concrete dimensions compare by magnitude,
anything else fails. -/
def minimal_dim : Dimn → Dimn → Option Dimn
  | d1, d2 =>
    if d1 = d2 then some d1
    else
      match d1, d2 with
      | Dimn.num a, Dimn.num b => some (Dimn.num (min a b))
      | _, _ => none

/-- Modelled from the spec: two indices form a dummy pair iff they have the
same identity and opposite variance (section 3; the glossary: "two indices of
matching identity and opposite variance").  Dimension comparability is not
part of the predicate: sections 4.2 and 7 have the contraction routines
checking `minimal_dim` separately after a dummy pair is found. -/
def is_dummy_pair (i1 i2 : Varidx) : Bool :=
  i1.id = i2.id && i1.covariant ≠ i2.covariant

/-- Modelled from the spec: replacing the dimension of an index preserves its
identity and variance (the "dimension-adjusted" substitution of section 4.2). -/
def replace_dim (i : Varidx) (d : Dimn) : Varidx :=
  { i with dim := d }

/-- Number of inversions of a sequence: pairs appearing in decreasing order. -/
def inversions : List ℕ → ℕ
  | [] => 0
  | a :: rest => (rest.filter (fun b => b < a)).length + inversions rest

/-- Modelled from the spec: "permutation-sign computation over an integer
sequence (collaborator utility)" (section 6): 0 when a value repeats,
otherwise the sign of the permutation, i.e. (-1) to the number of
inversions. -/
def permutation_sign (v : List ℕ) : ℤ :=
  if v.Nodup then (-1) ^ inversions v else 0

/-! ## Clifford factors and the small expression grammar

`clifford.cpp` stores the factors of a noncommutative word in an `exvector`
and overwrites slots with scalar subexpressions while rewriting.  `Ex` is
the grammar of everything those slots can hold. -/

/-- The three Clifford generator variants: `diracone`, `diracgamma` (with its
Lorentz index), `diracgamma5`. -/
inductive CliffKind
  | one
  | gam (mu : Varidx)
  | gamma5
deriving DecidableEq

/-- Expressions appearing in factor slots during Clifford rewriting:
Clifford objects (with their representation label), integer scalars,
dimensions, Lorentz metric tensors `lorentz_g(a,b)`, and sums, differences
and products formed by the rewrite rules. -/
inductive Ex
  | cliff (k : CliffKind) (rl : ℕ)
  | numE (n : ℤ)
  | dimE (d : Dimn)
  | lorg (a b : Varidx)
  | addE (x y : Ex)
  | subE (x y : Ex)
  | mulE (x y : Ex)
deriving DecidableEq

instance : Inhabited Ex := ⟨Ex.numE 0⟩

/-- `is_ex_of_type(e, clifford)`: the slot holds a Clifford object. -/
def isCliffordE : Ex → Bool
  | Ex.cliff _ _ => true
  | _ => false

/-- The slot holds a `diracone` object. -/
def isOneE : Ex → Bool
  | Ex.cliff CliffKind.one _ => true
  | _ => false

/-- The slot holds a `diracgamma5` object. -/
def isG5 : Ex → Bool
  | Ex.cliff CliffKind.gamma5 _ => true
  | _ => false

/-- `e.op(1)` of a Clifford gamma: its Lorentz index (junk elsewhere,
mirroring that the source only calls it on gamma objects). -/
def exIdx : Ex → Varidx
  | Ex.cliff (CliffKind.gam mu) _ => mu
  | _ => default

/-- Representation label of a Clifford object in a slot (junk elsewhere). -/
def exRl : Ex → ℕ
  | Ex.cliff _ rl => rl
  | _ => 0

/-- Product of a list of factors.  In the source this is an `ex` accumulated
from `_ex1()` by `operator*=`; GiNaC's automatic evaluation contracts the
leading `1 * x` to `x`, which the empty/nonempty split reproduces. -/
def mulList : List Ex → Ex
  | [] => Ex.numE 1
  | x :: xs => xs.foldl Ex.mulE x

/-- Noncommutative factors of a product expression, in order (scalar integer
literals are not factors). -/
def mulFactors : Ex → List Ex
  | Ex.mulE a b => mulFactors a ++ mulFactors b
  | Ex.numE _ => []
  | e => [e]

/-- Number of index occurrences in an expression. -/
def exIndexOccs : Ex → ℕ
  | Ex.cliff (CliffKind.gam _) _ => 1
  | Ex.cliff _ _ => 0
  | Ex.numE _ => 0
  | Ex.dimE _ => 0
  | Ex.lorg _ _ => 2
  | Ex.addE a b => exIndexOccs a + exIndexOccs b
  | Ex.subE a b => exIndexOccs a + exIndexOccs b
  | Ex.mulE a b => exIndexOccs a + exIndexOccs b

/-- Number of Clifford (noncommutative) factors occurring in an expression. -/
def exFactorOccs : Ex → ℕ
  | Ex.cliff _ _ => 1
  | Ex.numE _ => 0
  | Ex.dimE _ => 0
  | Ex.lorg _ _ => 0
  | Ex.addE a b => exFactorOccs a + exFactorOccs b
  | Ex.subE a b => exFactorOccs a + exFactorOccs b
  | Ex.mulE a b => exFactorOccs a + exFactorOccs b

/-- Total index occurrences of a factor sequence. -/
def seqIndexCount (v : List Ex) : ℕ := (v.map exIndexOccs).sum

/-- Total Clifford factor occurrences of a factor sequence. -/
def seqFactorCount (v : List Ex) : ℕ := (v.map exFactorOccs).sum

/-! ## `diracgamma::contract_with` (clifford.cpp lines 151-211)

The source works on iterators `self`, `other` into the factor vector `v` and
mutates slots in place; the embedding takes the two positions and returns the
rewritten vector, `none` for `return false`. -/

/-- Embedding of `diracgamma::contract_with`.  `s` and `o` are the positions
of `self` and `other` in `v`; `none` models `return false` (the vector is
then left unchanged by the caller). -/
def diracgamma_contract_with (v : List Ex) (s o : ℕ) : Option (List Ex) :=
  match v.getD s default with
  | Ex.cliff (CliffKind.gam mu) rl =>
    if isCliffordE (v.getD o default) then
      -- gamma~mu gamma.mu = dim ONE
      if o - s = 1 then
        some ((v.set s (Ex.dimE mu.dim)).set o (Ex.cliff CliffKind.one rl))
      -- gamma~mu gamma~alpha gamma.mu = (2-dim) gamma~alpha
      else if o - s = 2 ∧ isCliffordE (v.getD (s+1) default) then
        some ((v.set s (Ex.subE (Ex.numE 2) (Ex.dimE mu.dim))).set o (Ex.numE 1))
      -- gamma~mu gamma~alpha gamma~beta gamma.mu
      --   = 4 g~alpha~beta + (dim-4) gamma~alpha gamma~beta
      else if o - s = 3 ∧ isCliffordE (v.getD (s+1) default)
                        ∧ isCliffordE (v.getD (s+2) default) then
        let e1 := v.getD (s+1) default
        let e2 := v.getD (s+2) default
        let selfNew :=
          Ex.addE
            (Ex.mulE (Ex.mulE (Ex.numE 4) (Ex.lorg (exIdx e1) (exIdx e2)))
              (Ex.cliff CliffKind.one rl))
            (Ex.mulE (Ex.mulE (Ex.subE (Ex.dimE mu.dim) (Ex.numE 4)) e1) e2)
        some ((((v.set s selfNew).set (s+1) (Ex.numE 1)).set (s+2)
          (Ex.numE 1)).set o (Ex.numE 1))
      -- gamma~mu S gamma~alpha gamma.mu = 2 gamma~alpha S - gamma~mu S gamma.mu gamma~alpha
      else
        let between := (v.drop (s+1)).take (o - (s+1))
        if between.all isCliffordE then
          let sfac := (v.drop (s+1)).take (o - 1 - (s+1))
          let ntl := v.getD (o-1) default
          let selfE := v.getD s default
          let otherE := v.getD o default
          let sprod := mulList sfac
          let selfNew :=
            Ex.subE (Ex.mulE (Ex.mulE (Ex.numE 2) ntl) sprod)
              (Ex.mulE (Ex.mulE (Ex.mulE selfE sprod) otherE) ntl)
          some (v.take s ++ selfNew :: List.replicate (o - s) (Ex.numE 1)
            ++ v.drop (o+1))
        else
          none
    else
      none
  | _ => none

/-! ## `clifford::simplify_ncmul` (clifford.cpp lines 216-285)

The source sweeps iterators over the factor vector `s`, mutating in place
and tracking a global `sign` and a `something_changed` flag.  The embedding
threads the state `(s, sign, changed)` explicitly. -/

/-- State of the normalizer: current factor vector, accumulated sign,
`something_changed` flag. -/
structure NState where
  s : List Ex
  sign : ℤ
  changed : Bool
deriving DecidableEq

/-- One comparison-and-swap of the gamma5 bubbling loop at positions
`(i, i+1)`: when slot `i` is not a gamma5 and slot `i+1` is, the two are
swapped and the global sign flips. -/
def g5Step (i : ℕ) (st : NState) : NState :=
  if !isG5 (st.s.getD i default) && isG5 (st.s.getD (i+1) default) then
    { s := (st.s.set i (st.s.getD (i+1) default)).set (i+1) (st.s.getD i default),
      sign := -st.sign, changed := true }
  else
    st

/-- The inner loop of the bubbling pass: `it` runs from `hi` down to `first`
(position 0), applying `g5Step` at each position. -/
def g5Sweep : ℕ → NState → NState
  | 0, st => g5Step 0 st
  | i+1, st => g5Sweep i (g5Step (i+1) st)

/-- The outer loop of the bubbling pass: `next_to_last` runs from
`size - 2` down to position 0, each time re-running the inner sweep. -/
def g5Bubble : ℕ → NState → NState
  | 0, st => g5Sweep 0 st
  | hi+1, st => g5Bubble hi (g5Sweep (hi+1) st)

/-- "Remove squares of gamma5": while the first two factors are both gamma5,
erase them (setting `something_changed`). -/
def dropG5Squares : List Ex → List Ex × Bool
  | e1 :: e2 :: rest =>
    if isG5 e1 && isG5 e2 then
      ((dropG5Squares rest).1, true)
    else
      (e1 :: e2 :: rest, false)
  | l => (l, false)

/-- "Remove equal adjacent gammas": a single left-to-right pass replacing an
adjacent pair of gamma objects carrying equal indices by
`lorentz_g(ia, ib)` and `dirac_ONE(representation_label)`.  After a
replacement the source's iterator advances onto the written `dirac_ONE`,
which is not a gamma and therefore can never merge with the next factor, so
the pass resumes with the remaining tail. -/
def mergeAdjacent (rl : ℕ) : List Ex → List Ex × Bool
  | a :: b :: rest =>
    match a, b with
    | Ex.cliff (CliffKind.gam ia) rla, Ex.cliff (CliffKind.gam ib) _ =>
      if ia = ib then
        ((Ex.lorg ia ib) :: Ex.cliff CliffKind.one rl :: (mergeAdjacent rl rest).1,
          true)
      else
        let r := mergeAdjacent rl (b :: rest)
        (Ex.cliff (CliffKind.gam ia) rla :: r.1, r.2)
    | _, _ =>
      let r := mergeAdjacent rl (b :: rest)
      (a :: r.1, r.2)
  | l => (l, false)

/-- Embedding of `clifford::simplify_ncmul` (one invocation): remove
`diracone` factors, bubble gamma5s to the front flipping the sign on each
swap, cancel a leading gamma5 square, merge adjacent equal-index gammas.
Returns (sign, factor vector, something_changed).  An empty result stands
for the single factor `dirac_ONE` (the source returns
`clifford(diracone(), representation_label) * sign` there). -/
def simplify_ncmul (rl : ℕ) (v : List Ex) : ℤ × List Ex × Bool :=
  let s0 := v.filter (fun e => !isOneE e)
  let st :=
    if s0.length ≥ 2 then
      g5Bubble (s0.length - 2) { s := s0, sign := 1, changed := false }
    else
      { s := s0, sign := 1, changed := false }
  let (s1, ch1) := dropG5Squares st.s
  let (s2, ch2) := mergeAdjacent rl s1
  let changed := st.changed || ch1 || ch2
  if s2.length = 0 then
    (st.sign, [Ex.cliff CliffKind.one rl], changed)
  else
    (st.sign, s2, changed)

/-- Fixed-point driver for the normalizer.  In the source a changed result is
returned through `nonsimplified_ncmul`, whose evaluation re-enters
`simplify_ncmul`; the spec (section 5) prescribes a caller-imposed
recursion-depth guard, here the explicit `fuel` argument (exhaustion returns
the current word). -/
def clifford_normalize : ℕ → ℕ → List Ex → ℤ × List Ex
  | 0, _, v => (1, v)
  | fuel+1, rl, v =>
    let (sg, s, ch) := simplify_ncmul rl v
    if ch then
      let (sg2, s2) := clifford_normalize fuel rl s
      (sg * sg2, s2)
    else
      (sg, s)

/-! ## Special tensors (tensor.cpp) -/

/-- The tensor variants of tensor.cpp: `tensdelta`, `tensmetric`,
`minkmetric` (with signature flag), `spinmetric`, `tensepsilon` (with
Minkowski and signature flags). -/
inductive TBase
  | delta
  | metric
  | mink (pos_sig : Bool)
  | spin
  | eps (minkowski pos_sig : Bool)
deriving DecidableEq

/-- An indexed tensor: base object plus its ordered index list (GiNaC's
`indexed` wrapper, `op(0)` being the base and `op(1)`, `op(2)`, ... the
indices). -/
structure Indexed where
  base : TBase
  indices : List Varidx
deriving DecidableEq

/-- Modelled from the spec: the "dummy-pair predicate on two indices" lifted
to an index list (GiNaC's `get_dummy_indices` on a single indexed object):
whether some two distinct positions form a dummy pair. -/
def hasDummyPair : List Varidx → Bool
  | [] => false
  | x :: rest => rest.any (fun y => is_dummy_pair x y) || hasDummyPair rest

/-- Result slot values produced by the tensor contraction rules of
tensor.cpp: integer scalars, delta tensors, negations, and (for the generic
spinor-metric fallback) a substituted indexed object. -/
inductive TEx
  | numT (n : ℤ)
  | deltaT (i j : Varidx)
  | negT (t : TEx)
  | indexedT (t : Indexed)
deriving DecidableEq

/-- One attempt of `tensor::replace_contr_index` with a chosen self index and
remaining free index (the body of the `again:` block, tensor.cpp lines
341-359).  `some r` means the source executes `return` with result `r`
(`r = none` being the `return false` inside the `catch`); `none` means the
attempt fell through to the next candidate index. -/
def replace_contr_try (self_idx free_idx : Varidx) (otherT : Indexed) :
    Option (Option Indexed) :=
  if self_idx.symbolic then
    match otherT.indices.find? (fun oi => is_dummy_pair self_idx oi) with
    | some oi =>
      match minimal_dim self_idx.dim oi.dim with
      | some md =>
        some (some { otherT with
          indices := otherT.indices.map
            (fun x => if x = oi then replace_dim free_idx md else x) })
      | none => some none
    | none => none
  else
    none

/-- Embedding of `tensor::replace_contr_index` (tensor.cpp lines 333-371):
try the first index slot as the self index, then the second.  On success the
self factor becomes the multiplicative identity and the returned `Indexed`
replaces the other factor; `none` models `return false`, with both factors
left unchanged by the caller. -/
def replace_contr_index (selfT otherT : Indexed) : Option Indexed :=
  match selfT.indices with
  | [i1, i2] =>
    match replace_contr_try i1 i2 otherT with
    | some r => r
    | none =>
      match replace_contr_try i2 i1 otherT with
      | some r => r
      | none => none
  | _ => none

/-- One attempt of the generic fallback contraction inside
`spinmetric::contract_with` (tensor.cpp lines 455-469), which carries a sign
depending on the slot tried and the variance of the matched index. -/
def spinmetric_fallback_try (self_idx free_idx : Varidx) (sign : ℤ)
    (otherT : Indexed) : Option (TEx × TEx) :=
  if self_idx.symbolic then
    match otherT.indices.find? (fun oi => is_dummy_pair self_idx oi) with
    | some oi =>
      some
        (TEx.numT (if self_idx.covariant then sign else -sign),
          TEx.indexedT { otherT with
            indices := otherT.indices.map
              (fun x => if x = oi then free_idx else x) })
    | none => none
  else
    none

/-- Embedding of `spinmetric::contract_with` (tensor.cpp lines 405-482).
Result: `some (new self slot, new other slot)`, or `none` for
`return false`. -/
def spinmetric_contract_with (selfT otherT : Indexed) : Option (TEx × TEx) :=
  match selfT.indices with
  | [s1, s2] =>
    -- Contractions between spinor metrics
    (if otherT.base = TBase.spin then
      match otherT.indices with
      | [o1, o2] =>
        if is_dummy_pair s1 o1 then
          some (if is_dummy_pair s2 o2 then TEx.numT 2 else TEx.deltaT s2 o2,
            TEx.numT 1)
        else if is_dummy_pair s1 o2 then
          some (if is_dummy_pair s2 o1 then TEx.numT (-2)
            else TEx.negT (TEx.deltaT s2 o1), TEx.numT 1)
        else if is_dummy_pair s2 o1 then
          some (TEx.negT (TEx.deltaT s1 o2), TEx.numT 1)
        else if is_dummy_pair s2 o2 then
          some (TEx.deltaT s1 o1, TEx.numT 1)
        else none
      | _ => none
    else none).orElse (fun _ =>
    -- If contracting with the delta tensor, let the delta do it
    if otherT.base = TBase.delta then none
    else
      -- generic fallback: first index with sign +1, then second with sign -1
      match spinmetric_fallback_try s1 s2 1 otherT with
      | some r => some r
      | none =>
        match spinmetric_fallback_try s2 s1 (-1) otherT with
        | some r => some r
        | none => none)
  | _ => none

/-- Result of an `eval_indexed` rule: a simplified value or `hold` (no
further simplification). -/
inductive EvalRes
  | val (n : ℤ)
  | hold
deriving DecidableEq

/-- All index values are concrete non-negative integers
(`all_index_values_are(info_flags::nonnegint)`). -/
def allNumeric (l : List Varidx) : Bool :=
  l.all (fun i => (i.value).isSome)

/-- The concrete values of an all-numeric index list. -/
def idxValues (l : List Varidx) : List ℕ :=
  l.map (fun i => (i.value).getD 0)

/-- Embedding of `spinmetric::eval_indexed` (tensor.cpp lines 260-288):
convolutions (an internal dummy pair) are zero; two concrete index values
give 0 / +1 / -1 by comparison; anything else holds. -/
def spinmetric_eval_indexed (t : Indexed) : EvalRes :=
  if hasDummyPair t.indices then EvalRes.val 0
  else if allNumeric t.indices then
    match t.indices with
    | [i1, i2] =>
      let n1 := (i1.value).getD 0
      let n2 := (i2.value).getD 0
      if n1 = n2 then EvalRes.val 0
      else if n1 < n2 then EvalRes.val 1
      else EvalRes.val (-1)
    | _ => EvalRes.hold
  else EvalRes.hold

/-- The Minkowski sign adjustment loop of `tensepsilon::eval_indexed`
(tensor.cpp lines 313-324): for each covariant index, a zero value flips the
sign exactly when `pos_sig` is set, and a nonzero value flips it exactly when
`pos_sig` is not set. -/
def epsMinkAdjust (pos_sig : Bool) (sign : ℤ) : List Varidx → ℤ
  | [] => sign
  | i :: rest =>
    let sign' :=
      if i.covariant then
        if (i.value).getD 0 = 0 then
          if pos_sig then -sign else sign
        else
          if pos_sig then sign else -sign
      else sign
    epsMinkAdjust pos_sig sign' rest

/-- Embedding of `tensepsilon::eval_indexed` (tensor.cpp lines 291-331) for
an epsilon tensor with flags `minkowski`, `pos_sig`: convolutions are zero;
all-concrete indices give the permutation sign, adjusted per covariant index
in the Minkowski flavor; anything else holds. -/
def tensepsilon_eval_indexed (minkowski pos_sig : Bool) (ix : List Varidx) :
    EvalRes :=
  if hasDummyPair ix then EvalRes.val 0
  else if allNumeric ix then
    let sign := permutation_sign (idxValues ix)
    if minkowski then EvalRes.val (epsMinkAdjust pos_sig sign ix)
    else EvalRes.val sign
  else EvalRes.hold

/-! ## The trace engine (clifford.cpp lines 349-496)

Traces are scalar expressions built from metric tensors, epsilon tensors,
the imaginary unit and `trONE`; the embedding interprets them in an abstract
commutative ring `R` with an uninterpreted metric `gR`, epsilon `epsR`,
imaginary unit `Iu` and trace-of-ONE `trONE`. -/

section TraceEngine

variable {R : Type} [CommRing R]

/-- Embedding of `trace_string` (clifford.cpp lines 351-383): the trace of a
string of an even number of Dirac gammas, given the list of their indices,
divided by `trONE`.  Length 2 and 4 are closed forms; longer strings expand
recursively along the first index with alternating sign. -/
def trace_string (gR : Varidx → Varidx → R) (l : List Varidx) : R :=
  match l with
  | [a, b] => gR a b
  | [a, b, c, d] =>
    gR a b * gR c d + gR b c * gR a d - gR a c * gR b d
  | a :: rest =>
    ((List.range rest.length).map (fun i =>
      (-1 : R) ^ i * gR a (rest.getD i default) *
        trace_string gR (rest.eraseIdx i))).sum
  | _ => 0
termination_by l.length
decreasing_by
  simp only [List.length_cons]
  calc (rest.eraseIdx i).length ≤ rest.length := rest.length_eraseIdx_le i
    _ < rest.length + 1 := Nat.lt_succ_self _

/-- The recursive trace expansion exactly as the spec states it (used to
compare the source's `trace_string`, which special-cases length 4, against
the spec's recursion).  Modelled from the spec: "length 2 →
`trONE·Metric(idx0,idx1)`; length N≥4 → `Σ_{k=2..N} (−1)^k ·
Metric(idx1,idx_k) · Trace(string with idx1,idx_k removed)`, alternating
sign starting +1 at k=2; recursion bottoms out at length 2." -/
def trace_spec (gR : Varidx → Varidx → R) (l : List Varidx) : R :=
  match l with
  | [a, b] => gR a b
  | a :: rest =>
    ((List.range rest.length).map (fun i =>
      (-1 : R) ^ i * gR a (rest.getD i default) *
        trace_spec gR (rest.eraseIdx i))).sum
  | _ => 0
termination_by l.length
decreasing_by
  simp only [List.length_cons]
  calc (rest.eraseIdx i).length ≤ rest.length := rest.length_eraseIdx_le i
    _ < rest.length + 1 := Nat.lt_succ_self _

/-- All ascending quadruples `i < j < k < l` below `n`, in the nested loop
order of clifford.cpp lines 443-449. -/
def quadsAsc (n : ℕ) : List (ℕ × ℕ × ℕ × ℕ) :=
  (List.range n).flatMap (fun i =>
    ((List.range n).filter (fun j => i < j)).flatMap (fun j =>
      ((List.range n).filter (fun k => j < k)).flatMap (fun k =>
        ((List.range n).filter (fun l => k < l)).map (fun l => (i, j, k, l)))))

/-- The gamma5 trace sum of clifford.cpp lines 436-468 (divided by
`trONE * I`): over every ascending quadruple of positions, the sign of the
permutation moving the quadruple to the front times the epsilon tensor of
the four indices times the trace of the remaining string. -/
def g5TraceSum (gR : Varidx → Varidx → R)
    (epsR : Varidx → Varidx → Varidx → Varidx → R) (ix : List Varidx) : R :=
  ((quadsAsc ix.length).map (fun q =>
    match q with
    | (i, j, k, l) =>
      let others := (List.range ix.length).filter
        (fun m => !(m == i || m == j || m == k || m == l))
      let iv := [i, j, k, l] ++ others
      let v := others.map (fun m => ix.getD m default)
      ((permutation_sign iv : ℤ) : R) *
        epsR (ix.getD i default) (ix.getD j default)
          (ix.getD k default) (ix.getD l default) *
        trace_string gR v)).sum

/-- Modelled from the spec: a noncommutative word is "tagged" with the
representation label of its Clifford factors (sections 3 and 4.9); the tag
(`ncmul::return_type_tinfo`, part of the external expression substrate) is
the label carried by the word's leading factor. -/
def word_tag : List Ex → Option ℕ
  | Ex.cliff _ rl :: _ => some rl
  | _ => none

/-- Embedding of the noncommutative-word branch of `dirac_trace`
(clifford.cpp lines 409-486) on a flat word of Clifford factors: a word of
a different representation label traces to 0; a leading gamma5 makes the
trace vanish unless the remaining length is even and at least 4, with the
epsilon closed form at 4 and the quadruple sum beyond; without gamma5 an
odd word vanishes, length 2 is the metric closed form, and longer words go
through `trace_string`.  (A flat word is its own expansion, so the
`e.expand()` step of the source is the identity here.) -/
def dirac_trace_word (gR : Varidx → Varidx → R)
    (epsR : Varidx → Varidx → Varidx → Varidx → R) (Iu trONE : R)
    (rl : ℕ) (w : List Ex) : R :=
  if word_tag w ≠ some rl then 0
  else
    let num := w.length
    if isG5 (w.getD 0 default) then
      if num % 2 = 0 ∨ num = 3 then 0
      else if num = 5 then
        trONE * Iu * epsR (exIdx (w.getD 1 default)) (exIdx (w.getD 2 default))
          (exIdx (w.getD 3 default)) (exIdx (w.getD 4 default))
      else
        trONE * Iu * g5TraceSum gR epsR ((w.drop 1).map exIdx)
    else
      if num % 2 = 1 then 0
      else if num = 2 then
        trONE * gR (exIdx (w.getD 0 default)) (exIdx (w.getD 1 default))
      else
        trONE * trace_string gR (w.map exIdx)

/-! ## `canonicalize_clifford` (clifford.cpp lines 498-548) -/

/-- Modelled from the spec: the collaborator "ordering comparator" on index
objects (section 6), realized as an injective encoding into the naturals;
`compare(a, b) > 0` holds iff `varidxKey a > varidxKey b`. -/
def varidxKey (i : Varidx) : ℕ :=
  Nat.pair (match i.id with | IdxId.sym n => 2 * n | IdxId.num v => 2 * v + 1)
    (Nat.pair (cond i.covariant 1 0)
      (match i.dim with | Dimn.sym n => 2 * n | Dimn.num v => 2 * v + 1))

/-- The scan of the "stupid recursive bubble sort" (clifford.cpp lines
527-543): skip a leading gamma5, then find the first adjacent position whose
index compares greater than its successor's. -/
def findSwapPos (v : List Ex) : Option ℕ :=
  let skip := if isG5 (v.getD 0 default) then 1 else 0
  (List.range' skip (v.length - 1 - skip)).find? (fun k =>
    decide (varidxKey (exIdx (v.getD (k+1) default)) <
      varidxKey (exIdx (v.getD k default))))

/-- Embedding of the per-word core of `canonicalize_clifford`: the result is
a formal sum of coefficient-word pairs.  At the first out-of-order adjacent
gamma pair the word is split by `gamma_a gamma_b = 2 g(a,b) - gamma_b
gamma_a` (in the source: the two slots are overwritten by `lorentz_g` and
`2`, whose commutative values the re-evaluated product pulls out front), and
both resulting terms are canonicalized recursively.  The spec (section 5)
prescribes a caller-imposed recursion-depth guard; `fuel` realizes it, with
exhaustion surfacing as `none` (a fatal resource error). -/
def canonicalize_word (gR : Varidx → Varidx → R) :
    ℕ → List Ex → Option (List (R × List Ex))
  | 0, _ => none
  | fuel+1, v =>
    match findSwapPos v with
    | none => some [(1, v)]
    | some k =>
      let a := v.getD k default
      let b := v.getD (k+1) default
      let t1 := (v.eraseIdx k).eraseIdx k
      let t2 := (v.set k b).set (k+1) a
      match canonicalize_word gR fuel t1, canonicalize_word gR fuel t2 with
      | some r1, some r2 =>
        some ((r1.map (fun p => (2 * gR (exIdx a) (exIdx b) * p.1, p.2))) ++
          (r2.map (fun p => (-p.1, p.2))))
      | _, _ => none

end TraceEngine

/-- Modelled from the spec: `toggle_variance` preserves identity and
dimension (section 3). -/
def toggle_variance (i : Varidx) : Varidx :=
  { i with covariant := !i.covariant }

/-! ## Helper lemmas on positional list access -/

theorem getD_append_add {α : Type} (pre w : List α) (i : ℕ) (d : α) :
    (pre ++ w).getD (pre.length + i) d = w.getD i d := by
  rw [List.getD_append_right pre w d (pre.length + i) (Nat.le_add_right _ _)]
  simp

theorem getD_append_zero {α : Type} (pre w : List α) (d : α) :
    (pre ++ w).getD pre.length d = w.getD 0 d :=
  getD_append_add pre w 0 d

theorem set_append_add {α : Type} (pre w : List α) (i : ℕ) (x : α) :
    (pre ++ w).set (pre.length + i) x = pre ++ w.set i x := by
  rw [List.set_append]
  simp

theorem set_append_zero {α : Type} (pre w : List α) (x : α) :
    (pre ++ w).set pre.length x = pre ++ w.set 0 x :=
  set_append_add pre w 0 x

/-! ## Claim theorems -/

/-- C3: for a contracted Gamma pair with exactly two intervening Clifford
factors, `diracgamma::contract_with` rewrites
`Gamma(mu)·Gamma(a)·Gamma(b)·Gamma(mu)` to
`4·Metric(a,b)·Identity + (Dimension−4)·Gamma(a)·Gamma(b)`, where the
Dimension is the dimension of the contracted index `mu`, and reports the
contraction as successful (the result is `some`, i.e. `return true`; the
iterator positions are `pre.length` and `pre.length + 3`, and the partner
factor carries the toggled dummy index). -/
theorem c3_gap2_contraction (post : List Ex) (mu a b : Varidx)
    (rl rla rlb rlo : ℕ) :
    diracgamma_contract_with
      (Ex.cliff (CliffKind.gam mu) rl :: Ex.cliff (CliffKind.gam a) rla ::
        Ex.cliff (CliffKind.gam b) rlb ::
        Ex.cliff (CliffKind.gam (toggle_variance mu)) rlo :: post)
      0 3
    = some (
        Ex.addE
          (Ex.mulE (Ex.mulE (Ex.numE 4) (Ex.lorg a b)) (Ex.cliff CliffKind.one rl))
          (Ex.mulE (Ex.mulE (Ex.subE (Ex.dimE mu.dim) (Ex.numE 4))
            (Ex.cliff (CliffKind.gam a) rla)) (Ex.cliff (CliffKind.gam b) rlb)) ::
        Ex.numE 1 :: Ex.numE 1 :: Ex.numE 1 :: post) := by
  rfl

/-- A list of Clifford factor slots built from (kind, label) pairs. -/
def cliffs (l : List (CliffKind × ℕ)) : List Ex :=
  l.map (fun p => Ex.cliff p.1 p.2)

theorem mulFactors_foldl_mulE (xs : List Ex) (acc : Ex) :
    mulFactors (xs.foldl Ex.mulE acc) = mulFactors acc ++ xs.flatMap mulFactors := by
  induction xs generalizing acc with
  | nil => simp
  | cons x xs ih => simp [ih, mulFactors]

theorem mulFactors_mulList_cliffs (l : List (CliffKind × ℕ)) :
    mulFactors (mulList (cliffs l)) = cliffs l := by
  have h : ∀ (qs : List (CliffKind × ℕ)),
      (List.map (mulFactors ∘ fun p => Ex.cliff p.1 p.2) qs).flatten =
        List.map (fun p => Ex.cliff p.1 p.2) qs := by
    intro qs
    induction qs with
    | nil => rfl
    | cons q qs ih => simp [mulFactors, ih, Function.comp]
  cases l with
  | nil => simp [cliffs, mulList, mulFactors]
  | cons p rest =>
    simp [cliffs, mulList, mulFactors_foldl_mulE, mulFactors, List.flatMap, h]

theorem replace_contr_try_some (i f : Varidx) (o r : Indexed)
    (h : replace_contr_try i f o = some (some r)) :
    r.indices.length = o.indices.length := by
  unfold replace_contr_try at h
  split at h
  · split at h
    · split at h
      · injection h with h1
        injection h1 with h2
        subst h2
        simp
      · injection h with h1
        cases h1
    · cases h
  · cases h

theorem cliffs_all_clifford (l : List (CliffKind × ℕ)) :
    (cliffs l).all isCliffordE = true := by
  simp only [List.all_eq_true, cliffs]
  intro x hx
  obtain ⟨p, -, rfl⟩ := List.mem_map.mp hx
  rfl

theorem mulFactors_cliff (k : CliffKind) (r : ℕ) :
    mulFactors (Ex.cliff k r) = [Ex.cliff k r] := rfl

/-- The five-factor word `γ~μ γ~a γ~b γ~c γ.μ` (symbolic dimension), the
concrete input of the C4 counterexample. -/
def c4word : List Ex :=
  [Ex.cliff (CliffKind.gam ⟨IdxId.sym 0, false, Dimn.sym 0⟩) 0,
   Ex.cliff (CliffKind.gam ⟨IdxId.sym 1, false, Dimn.sym 0⟩) 0,
   Ex.cliff (CliffKind.gam ⟨IdxId.sym 2, false, Dimn.sym 0⟩) 0,
   Ex.cliff (CliffKind.gam ⟨IdxId.sym 3, false, Dimn.sym 0⟩) 0,
   Ex.cliff (CliffKind.gam ⟨IdxId.sym 0, true, Dimn.sym 0⟩) 0]

/-- C4, counterexample: on the five-gamma word `γ~μ γ~a γ~b γ~c γ.μ` the
gap ≥ 3 branch of `diracgamma::contract_with` succeeds, yet the resulting
factor sequence has neither a strictly smaller index count nor a strictly
smaller Clifford factor count (both grow from 5 to 8, the subtracted
re-emitted word alone already containing all five original factors).  This
refutes "every successful application of a contraction rule strictly
reduces either the index count or the factor count", and with it the claim
that this holds in particular for the gap ≥ 3 branch. -/
theorem c4_counterexample :
    (diracgamma_contract_with c4word 0 4).isSome = true ∧
    ¬ (seqIndexCount ((diracgamma_contract_with c4word 0 4).getD []) <
        seqIndexCount c4word ∨
       seqFactorCount ((diracgamma_contract_with c4word 0 4).getD []) <
        seqFactorCount c4word) := by
  decide

/-- C4, amended: a successful `replace_contr_index` and the gap 0, 1, 2
branches of `diracgamma::contract_with` each strictly reduce the index
count or the Clifford factor count of the sequence (gaps 0 and 1 reduce the
index count, gap 2 the factor count); the gap ≥ 3 branch instead preserves
both — its subtracted term re-emits a word holding a permutation of the
original contracted segment's factors — and strictly shrinks by one the gap
between the contracted pair (the partner factor ends up `sfac.length + 1`
slots after the leading gamma instead of `sfac.length + 2`), which is the
measure that makes the dispatcher's restart loop terminate. -/
theorem c4_amended :
    (∀ (post : List Ex) (mu : Varidx) (rl : ℕ) (ko : CliffKind) (rlo : ℕ),
      diracgamma_contract_with
        (Ex.cliff (CliffKind.gam mu) rl :: Ex.cliff ko rlo :: post) 0 1
      = some (Ex.dimE mu.dim :: Ex.cliff CliffKind.one rl :: post) ∧
      seqIndexCount (Ex.dimE mu.dim :: Ex.cliff CliffKind.one rl :: post) <
        seqIndexCount (Ex.cliff (CliffKind.gam mu) rl :: Ex.cliff ko rlo :: post)) ∧
    (∀ (post : List Ex) (mu : Varidx) (rl : ℕ) (k1 ko : CliffKind) (r1 rlo : ℕ),
      diracgamma_contract_with
        (Ex.cliff (CliffKind.gam mu) rl :: Ex.cliff k1 r1 ::
          Ex.cliff ko rlo :: post) 0 2
      = some (Ex.subE (Ex.numE 2) (Ex.dimE mu.dim) :: Ex.cliff k1 r1 ::
          Ex.numE 1 :: post) ∧
      seqIndexCount (Ex.subE (Ex.numE 2) (Ex.dimE mu.dim) :: Ex.cliff k1 r1 ::
          Ex.numE 1 :: post) <
        seqIndexCount (Ex.cliff (CliffKind.gam mu) rl :: Ex.cliff k1 r1 ::
          Ex.cliff ko rlo :: post)) ∧
    (∀ (post : List Ex) (mu : Varidx) (rl : ℕ) (k1 k2 ko : CliffKind)
        (r1 r2 rlo : ℕ),
      diracgamma_contract_with
        (Ex.cliff (CliffKind.gam mu) rl :: Ex.cliff k1 r1 :: Ex.cliff k2 r2 ::
          Ex.cliff ko rlo :: post) 0 3
      = some (Ex.addE
          (Ex.mulE (Ex.mulE (Ex.numE 4)
            (Ex.lorg (exIdx (Ex.cliff k1 r1)) (exIdx (Ex.cliff k2 r2))))
            (Ex.cliff CliffKind.one rl))
          (Ex.mulE (Ex.mulE (Ex.subE (Ex.dimE mu.dim) (Ex.numE 4))
            (Ex.cliff k1 r1)) (Ex.cliff k2 r2)) ::
          Ex.numE 1 :: Ex.numE 1 :: Ex.numE 1 :: post) ∧
      seqFactorCount (Ex.addE
          (Ex.mulE (Ex.mulE (Ex.numE 4)
            (Ex.lorg (exIdx (Ex.cliff k1 r1)) (exIdx (Ex.cliff k2 r2))))
            (Ex.cliff CliffKind.one rl))
          (Ex.mulE (Ex.mulE (Ex.subE (Ex.dimE mu.dim) (Ex.numE 4))
            (Ex.cliff k1 r1)) (Ex.cliff k2 r2)) ::
          Ex.numE 1 :: Ex.numE 1 :: Ex.numE 1 :: post) <
        seqFactorCount (Ex.cliff (CliffKind.gam mu) rl :: Ex.cliff k1 r1 ::
          Ex.cliff k2 r2 :: Ex.cliff ko rlo :: post)) ∧
    (∀ (selfT otherT res : Indexed),
      replace_contr_index selfT otherT = some res →
      res.indices.length = otherT.indices.length ∧
      res.indices.length < selfT.indices.length + otherT.indices.length) ∧
    (∀ (post : List Ex) (mu : Varidx) (rl : ℕ) (sfac : List (CliffKind × ℕ))
        (k1 k2 kn ko : CliffKind) (r1 r2 rn rlo : ℕ),
      diracgamma_contract_with
        (Ex.cliff (CliffKind.gam mu) rl ::
          (cliffs ((k1, r1) :: (k2, r2) :: sfac) ++
            (Ex.cliff kn rn :: Ex.cliff ko rlo :: post))) 0 (sfac.length + 4)
      = some (Ex.subE
          (Ex.mulE (Ex.mulE (Ex.numE 2) (Ex.cliff kn rn))
            (mulList (cliffs ((k1, r1) :: (k2, r2) :: sfac))))
          (Ex.mulE (Ex.mulE (Ex.mulE (Ex.cliff (CliffKind.gam mu) rl)
            (mulList (cliffs ((k1, r1) :: (k2, r2) :: sfac))))
            (Ex.cliff ko rlo)) (Ex.cliff kn rn)) ::
          (List.replicate (sfac.length + 4) (Ex.numE 1) ++ post)) ∧
      mulFactors (Ex.mulE (Ex.mulE (Ex.mulE (Ex.cliff (CliffKind.gam mu) rl)
          (mulList (cliffs ((k1, r1) :: (k2, r2) :: sfac))))
          (Ex.cliff ko rlo)) (Ex.cliff kn rn))
        = Ex.cliff (CliffKind.gam mu) rl ::
            (cliffs ((k1, r1) :: (k2, r2) :: sfac) ++
              [Ex.cliff ko rlo, Ex.cliff kn rn]) ∧
      (Ex.cliff (CliffKind.gam mu) rl ::
          (cliffs ((k1, r1) :: (k2, r2) :: sfac) ++
            [Ex.cliff ko rlo, Ex.cliff kn rn])).Perm
        (Ex.cliff (CliffKind.gam mu) rl ::
          (cliffs ((k1, r1) :: (k2, r2) :: sfac) ++
            (Ex.cliff kn rn :: Ex.cliff ko rlo :: [])))) := by
  refine ⟨?_, ?_, ?_, ?_, ?_⟩
  · intro post mu rl ko rlo
    refine ⟨rfl, ?_⟩
    cases ko <;> (simp [seqIndexCount, exIndexOccs]; try omega)
  · intro post mu rl k1 ko r1 rlo
    refine ⟨rfl, ?_⟩
    cases ko <;> (simp [seqIndexCount, exIndexOccs]; try omega)
  · intro post mu rl k1 k2 ko r1 r2 rlo
    refine ⟨rfl, ?_⟩
    cases ko <;> (simp [seqFactorCount, exFactorOccs]; try omega)
  · intro selfT otherT res h
    unfold replace_contr_index at h
    split at h
    case _ i1 i2 heq =>
      have hlen : selfT.indices.length = 2 := by rw [heq]; rfl
      split at h
      case _ r' hr =>
        subst h
        have := replace_contr_try_some i1 i2 otherT res hr
        omega
      case _ hr1 =>
        split at h
        case _ r' hr =>
          subst h
          have := replace_contr_try_some i2 i1 otherT res hr
          omega
        case _ => cases h
    case _ => cases h
  · intro post mu rl sfac k1 k2 kn ko r1 r2 rn rlo
    refine ⟨?_, ?_, ?_⟩
    ·
      have hEl : (cliffs ((k1, r1) :: (k2, r2) :: sfac)).length = sfac.length + 2 := by
        simp [cliffs]
      unfold diracgamma_contract_with
      rw [List.getD_cons_zero]
      dsimp only
      have hO : (Ex.cliff (CliffKind.gam mu) rl ::
          (cliffs ((k1, r1) :: (k2, r2) :: sfac) ++
            (Ex.cliff kn rn :: Ex.cliff ko rlo :: post))).getD (sfac.length + 4) default
          = Ex.cliff ko rlo := by
        rw [show sfac.length + 4 = (sfac.length + 3) + 1 from rfl, List.getD_cons_succ,
          show sfac.length + 3 = (cliffs ((k1, r1) :: (k2, r2) :: sfac)).length + 1 from
            by rw [hEl], getD_append_add]
        rfl
      rw [hO]
      rw [if_pos (show isCliffordE (Ex.cliff ko rlo) = true from rfl)]
      rw [if_neg (by omega : ¬(sfac.length + 4 - 0 = 1))]
      rw [if_neg (fun h => by omega : ¬(sfac.length + 4 - 0 = 2 ∧
        isCliffordE ((Ex.cliff (CliffKind.gam mu) rl ::
          (cliffs ((k1, r1) :: (k2, r2) :: sfac) ++
            (Ex.cliff kn rn :: Ex.cliff ko rlo :: post))).getD (0+1) default) = true))]
      rw [if_neg (fun h => by omega : ¬(sfac.length + 4 - 0 = 3 ∧
        isCliffordE ((Ex.cliff (CliffKind.gam mu) rl ::
          (cliffs ((k1, r1) :: (k2, r2) :: sfac) ++
            (Ex.cliff kn rn :: Ex.cliff ko rlo :: post))).getD (0+1) default) = true ∧
        isCliffordE ((Ex.cliff (CliffKind.gam mu) rl ::
          (cliffs ((k1, r1) :: (k2, r2) :: sfac) ++
            (Ex.cliff kn rn :: Ex.cliff ko rlo :: post))).getD (0+2) default) = true))]
      rw [List.drop_succ_cons, List.drop_zero]
      have hb : List.take (sfac.length + 4 - (0 + 1))
          (cliffs ((k1, r1) :: (k2, r2) :: sfac) ++
            (Ex.cliff kn rn :: Ex.cliff ko rlo :: post))
          = cliffs ((k1, r1) :: (k2, r2) :: sfac) ++ [Ex.cliff kn rn] := by
        rw [show sfac.length + 4 - (0 + 1) =
            (cliffs ((k1, r1) :: (k2, r2) :: sfac)).length + 1 from by rw [hEl]; omega]
        rw [List.take_append]
        rfl
      rw [hb]
      have hall : (cliffs ((k1, r1) :: (k2, r2) :: sfac) ++ [Ex.cliff kn rn]).all
          isCliffordE = true := by
        rw [List.all_append]
        simp [cliffs_all_clifford, isCliffordE]
      rw [if_pos hall]
      have hsf : List.take (sfac.length + 4 - 1 - (0 + 1))
          (cliffs ((k1, r1) :: (k2, r2) :: sfac) ++
            (Ex.cliff kn rn :: Ex.cliff ko rlo :: post))
          = cliffs ((k1, r1) :: (k2, r2) :: sfac) := by
        rw [show sfac.length + 4 - 1 - (0 + 1) =
            (cliffs ((k1, r1) :: (k2, r2) :: sfac)).length from by rw [hEl]; omega]
        rw [List.take_left]
      rw [hsf]
      have hntl : (Ex.cliff (CliffKind.gam mu) rl ::
          (cliffs ((k1, r1) :: (k2, r2) :: sfac) ++
            (Ex.cliff kn rn :: Ex.cliff ko rlo :: post))).getD
          (sfac.length + 4 - 1) default = Ex.cliff kn rn := by
        rw [show sfac.length + 4 - 1 = (sfac.length + 2) + 1 from by omega,
          List.getD_cons_succ,
          show sfac.length + 2 = (cliffs ((k1, r1) :: (k2, r2) :: sfac)).length from
            hEl.symm, getD_append_zero]
        rfl
      rw [hntl]
      have hde : List.drop (sfac.length + 4 + 1)
          (Ex.cliff (CliffKind.gam mu) rl ::
            (cliffs ((k1, r1) :: (k2, r2) :: sfac) ++
              (Ex.cliff kn rn :: Ex.cliff ko rlo :: post))) = post := by
        rw [List.drop_succ_cons,
          show cliffs ((k1, r1) :: (k2, r2) :: sfac) ++
              (Ex.cliff kn rn :: Ex.cliff ko rlo :: post) =
            (cliffs ((k1, r1) :: (k2, r2) :: sfac) ++
              [Ex.cliff kn rn, Ex.cliff ko rlo]) ++ post from by simp,
          show sfac.length + 4 = (cliffs ((k1, r1) :: (k2, r2) :: sfac) ++
              [Ex.cliff kn rn, Ex.cliff ko rlo]).length from by simp [hEl],
          List.drop_left]
      rw [hde]
      simp
    · simp [mulFactors, mulFactors_cliff, mulFactors_mulList_cliffs]
    · exact ((List.Perm.append_left _ (List.Perm.swap _ _ _)).cons _)

/-- Concrete delta factor `delta(i7~, i8~)` for the C4 witness. -/
def c4self : Indexed :=
  ⟨TBase.delta, [⟨IdxId.sym 7, false, Dimn.sym 1⟩, ⟨IdxId.sym 8, false, Dimn.sym 1⟩]⟩

/-- Concrete metric factor `g(i7., i9~)` sharing the dummy index `i7` with
`c4self`, for the C4 witness. -/
def c4other : Indexed :=
  ⟨TBase.metric, [⟨IdxId.sym 7, true, Dimn.sym 1⟩, ⟨IdxId.sym 9, false, Dimn.sym 1⟩]⟩

/-- Result of contracting `c4self` into `c4other`. -/
def c4res : Indexed :=
  ⟨TBase.metric, [⟨IdxId.sym 8, false, Dimn.sym 1⟩, ⟨IdxId.sym 9, false, Dimn.sym 1⟩]⟩

/-- Witness for the hypothesis-bearing conjunct of the amended C4 theorem:
a concrete successful `replace_contr_index` whose result keeps the partner's
index count and strictly lowers the pair's total. -/
theorem c4_amended_witness :
    replace_contr_index c4self c4other = some c4res ∧
    c4res.indices.length = c4other.indices.length ∧
    c4res.indices.length < c4self.indices.length + c4other.indices.length :=
  ⟨by decide, (c4_amended.2.2.2.1 c4self c4other c4res (by decide)).1,
    (c4_amended.2.2.2.1 c4self c4other c4res (by decide)).2⟩

/-- C7: during delta/metric contraction, when the candidate dummy pair found
by `replace_contr_index` has no minimal comparable dimension
(`minimal_dim` fails), the function returns "no contraction" (`none`, the
`return false` inside the `catch` of tensor.cpp lines 348-357) — in this
functional embedding a `none` result is precisely the caller keeping both
factor slots untouched, the atomic skip — and the failure is consumed on the
spot, never surfacing as an exception (the embedding is total: every
`minimal_dim` failure is mapped to the `none` result).  The first conjunct
covers a failing candidate found on the first index slot, the second a
failing candidate found on the second slot after the first found nothing. -/
theorem c7_incomparable_dims_skip (selfT otherT : Indexed) (i1 i2 oi : Varidx)
    (hind : selfT.indices = [i1, i2]) :
    (i1.symbolic = true →
      otherT.indices.find? (fun x => is_dummy_pair i1 x) = some oi →
      minimal_dim i1.dim oi.dim = none →
      replace_contr_index selfT otherT = none) ∧
    (replace_contr_try i1 i2 otherT = none →
      i2.symbolic = true →
      otherT.indices.find? (fun x => is_dummy_pair i2 x) = some oi →
      minimal_dim i2.dim oi.dim = none →
      replace_contr_index selfT otherT = none) := by
  constructor
  · intro hs hf hm
    have h1 : replace_contr_try i1 i2 otherT = some none := by
      simp [replace_contr_try, hs, hf, hm]
    simp [replace_contr_index, hind, h1]
  · intro h1 hs hf hm
    have h2 : replace_contr_try i2 i1 otherT = some none := by
      simp [replace_contr_try, hs, hf, hm]
    simp [replace_contr_index, hind, h1, h2]

/-- Concrete self factor `delta(i7~[dim D1], i8~[dim D1])` for the C7
witness. -/
def c7self : Indexed :=
  ⟨TBase.delta, [⟨IdxId.sym 7, false, Dimn.sym 1⟩, ⟨IdxId.sym 8, false, Dimn.sym 1⟩]⟩

/-- Concrete other factor `g(i7.[dim D2], i9~[dim D2])`: index `i7` is a
dummy pair with `c7self`'s first index but the symbolic dimensions D1 and D2
are incomparable. -/
def c7other : Indexed :=
  ⟨TBase.metric, [⟨IdxId.sym 7, true, Dimn.sym 2⟩, ⟨IdxId.sym 9, false, Dimn.sym 2⟩]⟩

/-- Witness for C7 at a concrete dummy pair with incomparable dimensions. -/
theorem c7_witness :
    (⟨IdxId.sym 7, false, Dimn.sym 1⟩ : Varidx).symbolic = true ∧
    c7other.indices.find?
      (fun x => is_dummy_pair ⟨IdxId.sym 7, false, Dimn.sym 1⟩ x) =
      some ⟨IdxId.sym 7, true, Dimn.sym 2⟩ ∧
    minimal_dim (Dimn.sym 1) (Dimn.sym 2) = none ∧
    replace_contr_index c7self c7other = none :=
  ⟨by decide, by decide, by decide,
    (c7_incomparable_dims_skip c7self c7other _ _
      ⟨IdxId.sym 7, true, Dimn.sym 2⟩ rfl).1 (by decide) (by decide) (by decide)⟩

/-- C9: two spinor-metric factors sharing at least one dummy index pair
collapse by the four slot-correspondence sub-cases of
`spinmetric::contract_with` (tensor.cpp lines 413-442): both slots matched
in parallel gives the scalar 2; both matched crossed gives −2; a single
matched pair gives plus or minus the delta tensor of the two remaining free
indices, the minus sign exactly in the crossed (antisymmetric) sub-cases;
and the partner factor is replaced by 1 in every sub-case.  The negated
hypotheses reflect the source's testing order. -/
theorem c9_spinmetric_collapse (s1 s2 o1 o2 : Varidx) :
    (is_dummy_pair s1 o1 = true → is_dummy_pair s2 o2 = true →
      spinmetric_contract_with ⟨TBase.spin, [s1, s2]⟩ ⟨TBase.spin, [o1, o2]⟩ =
        some (TEx.numT 2, TEx.numT 1)) ∧
    (is_dummy_pair s1 o1 = false → is_dummy_pair s1 o2 = true →
      is_dummy_pair s2 o1 = true →
      spinmetric_contract_with ⟨TBase.spin, [s1, s2]⟩ ⟨TBase.spin, [o1, o2]⟩ =
        some (TEx.numT (-2), TEx.numT 1)) ∧
    (is_dummy_pair s1 o1 = true → is_dummy_pair s2 o2 = false →
      spinmetric_contract_with ⟨TBase.spin, [s1, s2]⟩ ⟨TBase.spin, [o1, o2]⟩ =
        some (TEx.deltaT s2 o2, TEx.numT 1)) ∧
    (is_dummy_pair s1 o1 = false → is_dummy_pair s1 o2 = true →
      is_dummy_pair s2 o1 = false →
      spinmetric_contract_with ⟨TBase.spin, [s1, s2]⟩ ⟨TBase.spin, [o1, o2]⟩ =
        some (TEx.negT (TEx.deltaT s2 o1), TEx.numT 1)) ∧
    (is_dummy_pair s1 o1 = false → is_dummy_pair s1 o2 = false →
      is_dummy_pair s2 o1 = true →
      spinmetric_contract_with ⟨TBase.spin, [s1, s2]⟩ ⟨TBase.spin, [o1, o2]⟩ =
        some (TEx.negT (TEx.deltaT s1 o2), TEx.numT 1)) ∧
    (is_dummy_pair s1 o1 = false → is_dummy_pair s1 o2 = false →
      is_dummy_pair s2 o1 = false → is_dummy_pair s2 o2 = true →
      spinmetric_contract_with ⟨TBase.spin, [s1, s2]⟩ ⟨TBase.spin, [o1, o2]⟩ =
        some (TEx.deltaT s1 o1, TEx.numT 1)) := by
  refine ⟨?_, ?_, ?_, ?_, ?_, ?_⟩ <;>
    intro h1 h2 <;>
    first
      | (intro h3 h4; simp [spinmetric_contract_with, h1, h2, h3, h4])
      | (intro h3; simp [spinmetric_contract_with, h1, h2, h3])
      | simp [spinmetric_contract_with, h1, h2]

/-- Witness for C9: a concrete parallel double match evaluating to 2. -/
theorem c9_witness :
    is_dummy_pair ⟨IdxId.sym 20, false, Dimn.num 2⟩ ⟨IdxId.sym 20, true, Dimn.num 2⟩ = true ∧
    is_dummy_pair ⟨IdxId.sym 21, false, Dimn.num 2⟩ ⟨IdxId.sym 21, true, Dimn.num 2⟩ = true ∧
    spinmetric_contract_with
      ⟨TBase.spin, [⟨IdxId.sym 20, false, Dimn.num 2⟩, ⟨IdxId.sym 21, false, Dimn.num 2⟩]⟩
      ⟨TBase.spin, [⟨IdxId.sym 20, true, Dimn.num 2⟩, ⟨IdxId.sym 21, true, Dimn.num 2⟩]⟩ =
      some (TEx.numT 2, TEx.numT 1) :=
  ⟨by decide, by decide,
    (c9_spinmetric_collapse _ _ _ _).1 (by decide) (by decide)⟩

/-- C10: an indexed spinor-metric or epsilon tensor whose own index list
contains a dummy pair (a self-convolution, symbolic indices included)
evaluates to 0 at evaluation time (tensor.cpp lines 271-273 and 297-299),
not merely for concrete repeated integer index values. -/
theorem c10_self_convolution_zero (t : Indexed) (mk ps : Bool)
    (ix : List Varidx) :
    (hasDummyPair t.indices = true → spinmetric_eval_indexed t = EvalRes.val 0) ∧
    (hasDummyPair ix = true →
      tensepsilon_eval_indexed mk ps ix = EvalRes.val 0) := by
  constructor
  · intro h
    unfold spinmetric_eval_indexed
    rw [if_pos h]
  · intro h
    unfold tensepsilon_eval_indexed
    rw [if_pos h]

/-- Witness for C10 at purely symbolic dummy pairs. -/
theorem c10_witness :
    hasDummyPair [⟨IdxId.sym 5, false, Dimn.num 2⟩, ⟨IdxId.sym 5, true, Dimn.num 2⟩] = true ∧
    spinmetric_eval_indexed
      ⟨TBase.spin, [⟨IdxId.sym 5, false, Dimn.num 2⟩, ⟨IdxId.sym 5, true, Dimn.num 2⟩]⟩ =
      EvalRes.val 0 ∧
    tensepsilon_eval_indexed true false
      [⟨IdxId.sym 5, false, Dimn.num 4⟩, ⟨IdxId.sym 5, true, Dimn.num 4⟩,
        ⟨IdxId.sym 6, false, Dimn.num 4⟩, ⟨IdxId.sym 7, false, Dimn.num 4⟩] =
      EvalRes.val 0 :=
  ⟨by decide,
    (c10_self_convolution_zero
      ⟨TBase.spin, [⟨IdxId.sym 5, false, Dimn.num 2⟩, ⟨IdxId.sym 5, true, Dimn.num 2⟩]⟩
      true false []).1 (by decide),
    (c10_self_convolution_zero ⟨TBase.spin, []⟩ true false
      [⟨IdxId.sym 5, false, Dimn.num 4⟩, ⟨IdxId.sym 5, true, Dimn.num 4⟩,
        ⟨IdxId.sym 6, false, Dimn.num 4⟩, ⟨IdxId.sym 7, false, Dimn.num 4⟩]).2
      (by decide)⟩

/-- The concrete-epsilon value exactly as the claim (and spec section 4.5)
words it: the permutation sign, and in the Minkowski flavor additionally a
factor of −1 (or +1, depending on the signature flag) for each covariant
index bound to value 0 — and no factor for covariant indices bound to
nonzero values.  This definition follows the claim's words, to be compared
with the source's `tensepsilon_eval_indexed`. -/
def eps_claim_value (mk ps : Bool) (ix : List Varidx) : ℤ :=
  let sign := permutation_sign (idxValues ix)
  if mk then
    sign * (ix.map (fun i =>
      if i.covariant ∧ (i.value).getD 0 = 0 then (if ps then (-1 : ℤ) else 1)
      else 1)).prod
  else sign

/-- The amended concrete-epsilon value: as the claim, except that each
covariant index bound to a NONZERO value also contributes a factor, namely
−1 when the signature flag is unset and +1 when it is set (the mirror image
of the zero-value factor). -/
def eps_amended_value (mk ps : Bool) (ix : List Varidx) : ℤ :=
  let sign := permutation_sign (idxValues ix)
  if mk then
    sign * (ix.map (fun i =>
      if i.covariant then
        (if (i.value).getD 0 = 0 then (if ps then (-1 : ℤ) else 1)
         else (if ps then 1 else (-1 : ℤ)))
      else 1)).prod
  else sign

/-- Minkowski epsilon index assignment `eps(0~, 1., 2~, 3~)` (one covariant
index bound to the nonzero value 1), the C6 counterexample input. -/
def c6ix : List Varidx :=
  [⟨IdxId.num 0, false, Dimn.num 4⟩, ⟨IdxId.num 1, true, Dimn.num 4⟩,
   ⟨IdxId.num 2, false, Dimn.num 4⟩, ⟨IdxId.num 3, false, Dimn.num 4⟩]

/-- C6, counterexample: on `eps(0~, 1., 2~, 3~)` with the Minkowski flavor
and the default signature flag, the source evaluates to −1 (the covariant
index bound to the nonzero value 1 flips the sign, tensor.cpp line 322),
while the claim's formula — no factor for covariant indices bound to
nonzero values — predicts +1. -/
theorem c6_counterexample :
    tensepsilon_eval_indexed true false c6ix = EvalRes.val (-1) ∧
    eps_claim_value true false c6ix = 1 := by
  decide

theorem dummy_numeric_dup (ix : List Varidx) (hd : hasDummyPair ix = true) :
    ¬ (idxValues ix).Nodup := by
  induction ix with
  | nil => simp [hasDummyPair] at hd
  | cons x rest ih =>
    unfold hasDummyPair at hd
    rw [Bool.or_eq_true] at hd
    intro hn
    simp only [idxValues, List.map_cons, List.nodup_cons] at hn
    rcases hd with hy | htail
    · obtain ⟨y, hymem, hyp⟩ := List.any_eq_true.mp hy
      simp only [is_dummy_pair, Bool.and_eq_true, decide_eq_true_eq] at hyp
      apply hn.1
      refine List.mem_map.mpr ⟨y, hymem, ?_⟩
      rcases x with ⟨xi, xc, xd⟩
      rcases y with ⟨yi, yc, yd⟩
      have hid : xi = yi := hyp.1
      subst hid
      cases xi <;> rfl
    · exact ih htail hn.2

theorem epsMinkAdjust_eq_prod (ps : Bool) (ix : List Varidx) : ∀ (sign : ℤ),
    epsMinkAdjust ps sign ix = sign * (ix.map (fun i =>
      if i.covariant then
        (if (i.value).getD 0 = 0 then (if ps then (-1 : ℤ) else 1)
         else (if ps then 1 else (-1 : ℤ)))
      else 1)).prod := by
  induction ix with
  | nil => intro sign; simp [epsMinkAdjust]
  | cons i rest ih =>
    intro sign
    unfold epsMinkAdjust
    rw [ih]
    simp only [List.map_cons, List.prod_cons]
    cases hc : i.covariant <;> cases hps : ps <;>
      by_cases hv : (i.value).getD 0 = 0 <;> simp [hc, hps, hv]

/-- C6, amended: for an epsilon tensor whose indices are all bound to
concrete non-negative integers, `tensepsilon_eval_indexed` evaluates to the
permutation sign (0 on a repeated value), and in the Minkowski flavor
additionally multiplied by −1 (or +1, by signature) for each covariant
index bound to value 0 and by the mirror factor — +1 (signature flag set)
or −1 (unset) — for each covariant index bound to a nonzero value. -/
theorem c6_amended (mk ps : Bool) (ix : List Varidx)
    (h : allNumeric ix = true) :
    tensepsilon_eval_indexed mk ps ix = EvalRes.val (eps_amended_value mk ps ix) := by
  unfold tensepsilon_eval_indexed eps_amended_value
  by_cases hd : hasDummyPair ix = true
  · rw [if_pos hd]
    have h0 : permutation_sign (idxValues ix) = 0 := by
      unfold permutation_sign
      rw [if_neg (dummy_numeric_dup ix hd)]
    rw [h0]
    cases mk <;> simp
  · rw [if_neg hd, if_pos h]
    cases mk
    · simp
    · simp [epsMinkAdjust_eq_prod]

/-- Witness for the amended C6 theorem at the counterexample input. -/
theorem c6_amended_witness :
    allNumeric c6ix = true ∧
    tensepsilon_eval_indexed true false c6ix =
      EvalRes.val (eps_amended_value true false c6ix) :=
  ⟨by decide, c6_amended true false c6ix (by decide)⟩

/-- C5: under the automatic normalization of Clifford words
(`simplify_ncmul`, iterated to its fixed point by `clifford_normalize`),
`Gamma5·Gamma(mu) + Gamma(mu)·Gamma5 = 0` and
`Gamma5·Gamma(mu)·Gamma5 + Gamma(mu) = 0` for every index `mu`: the words
of each pair normalize to the same factor sequence with opposite
accumulated signs (each adjacent swap moving the gamma5 leftward past the
gamma flips the global sign, and the leading gamma5 pair of the second
identity cancels), so the two sums vanish.  `fuel + 2` invocations reach
the fixed point for any fuel reserve. -/
theorem c5_gamma5_anticommutation (mu : Varidx) (rl fuel : ℕ) :
    ((clifford_normalize (fuel + 2) rl
        [Ex.cliff CliffKind.gamma5 rl, Ex.cliff (CliffKind.gam mu) rl]).2 =
      (clifford_normalize (fuel + 2) rl
        [Ex.cliff (CliffKind.gam mu) rl, Ex.cliff CliffKind.gamma5 rl]).2 ∧
     (clifford_normalize (fuel + 2) rl
        [Ex.cliff CliffKind.gamma5 rl, Ex.cliff (CliffKind.gam mu) rl]).1 +
      (clifford_normalize (fuel + 2) rl
        [Ex.cliff (CliffKind.gam mu) rl, Ex.cliff CliffKind.gamma5 rl]).1 = 0) ∧
    ((clifford_normalize (fuel + 2) rl
        [Ex.cliff CliffKind.gamma5 rl, Ex.cliff (CliffKind.gam mu) rl,
          Ex.cliff CliffKind.gamma5 rl]).2 =
      (clifford_normalize (fuel + 2) rl [Ex.cliff (CliffKind.gam mu) rl]).2 ∧
     (clifford_normalize (fuel + 2) rl
        [Ex.cliff CliffKind.gamma5 rl, Ex.cliff (CliffKind.gam mu) rl,
          Ex.cliff CliffKind.gamma5 rl]).1 +
      (clifford_normalize (fuel + 2) rl [Ex.cliff (CliffKind.gam mu) rl]).1 = 0) :=
  ⟨⟨rfl, rfl⟩, ⟨rfl, rfl⟩⟩

/-- The source's `trace_string` (with its special-cased length-4 closed
form) agrees with the spec's uniform recursive expansion `trace_spec` on
every even-length index list. -/
theorem trace_string_eq_spec {R : Type} [CommRing R]
    (gR : Varidx → Varidx → R) :
    ∀ (n : ℕ) (l : List Varidx), l.length ≤ n → l.length % 2 = 0 →
      trace_string gR l = trace_spec gR l := by
  intro n
  induction n with
  | zero =>
    intro l hl _
    have hnil : l = [] := List.eq_nil_of_length_eq_zero (Nat.le_zero.mp hl)
    subst hnil
    simp [trace_string, trace_spec]
  | succ n ih =>
    intro l hl hpar
    rcases l with _ | ⟨a, _ | ⟨b, _ | ⟨c, _ | ⟨d, _ | ⟨e, rest⟩⟩⟩⟩⟩
    · simp [trace_string, trace_spec]
    · simp at hpar
    · simp [trace_string, trace_spec]
    · exact absurd hpar (by simp [List.length_cons])
    · -- length 4: the closed form against one unfolding of the expansion
      simp [trace_string, trace_spec, List.range_succ]
      ring
    · -- length ≥ 6 (≥ 5 and even): both sides expand along the first index
      simp only [trace_string, trace_spec]
      congr 1
      apply List.map_congr_left
      intro i hi
      rw [List.mem_range] at hi
      congr 1
      have hlt : i < (b :: c :: d :: e :: rest).length := hi
      have hlen : ((b :: c :: d :: e :: rest).eraseIdx i).length + 1 =
          (b :: c :: d :: e :: rest).length :=
        List.length_eraseIdx_add_one hlt
      apply ih
      · simp only [List.length_cons] at hlen hl ⊢
        omega
      · simp only [List.length_cons] at hlen hpar ⊢
        omega

/-- C1: for a noncommutative word of an even number N ≥ 4 of plain gammas
(no gamma5) of the traced representation label, `dirac_trace` equals `trONE`
times the spec's recursive expansion (`trace_spec`: over k = 2..N with
alternating sign starting +1 at k = 2, Metric of the first and k-th index
times the trace with both removed, bottoming out at the length-2 metric
closed form); in particular at N = 4 it is
`trONE·(g(mu,nu)g(rho,sig) + g(nu,rho)g(mu,sig) − g(mu,rho)g(nu,sig))`. -/
theorem c1_trace_even_word {R : Type} [CommRing R]
    (gR : Varidx → Varidx → R) (epsR : Varidx → Varidx → Varidx → Varidx → R)
    (Iu trONE : R) (rl : ℕ) :
    (∀ (ixs : List Varidx), ixs.length % 2 = 0 → 4 ≤ ixs.length →
      dirac_trace_word gR epsR Iu trONE rl
        (ixs.map (fun i => Ex.cliff (CliffKind.gam i) rl))
        = trONE * trace_spec gR ixs) ∧
    (∀ (mu nu rho sig : Varidx),
      dirac_trace_word gR epsR Iu trONE rl
        [Ex.cliff (CliffKind.gam mu) rl, Ex.cliff (CliffKind.gam nu) rl,
          Ex.cliff (CliffKind.gam rho) rl, Ex.cliff (CliffKind.gam sig) rl]
        = trONE * (gR mu nu * gR rho sig + gR nu rho * gR mu sig
            - gR mu rho * gR nu sig)) := by
  constructor
  · intro ixs hpar hlen
    rcases ixs with _ | ⟨i, tl⟩
    · simp at hlen
    · simp only [List.length_cons] at hpar hlen
      have hid : ∀ l : List Varidx, List.map exIdx
          (List.map (fun j => Ex.cliff (CliffKind.gam j) rl) l) = l := by
        intro l
        induction l with
        | nil => rfl
        | cons x xs ihx => simp [exIdx, ihx]
      simp only [dirac_trace_word, List.map_cons, word_tag, List.length_map,
        List.length_cons, List.getD_cons_zero, isG5, ne_eq]
      rw [if_neg (by simp), if_neg (show ¬(false = true) by simp),
        if_neg (show ¬((tl.length + 1) % 2 = 1) by omega),
        if_neg (show ¬(tl.length + 1 = 2) by omega),
        show exIdx (Ex.cliff (CliffKind.gam i) rl) = i from rfl, hid tl,
        trace_string_eq_spec gR (i :: tl).length (i :: tl) le_rfl
          (by simp only [List.length_cons]; exact hpar)]
  · intro mu nu rho sig
    simp only [dirac_trace_word, word_tag, List.getD_cons_zero, isG5, ne_eq]
    rw [if_neg (by simp)]
    simp [trace_string, List.map_cons, exIdx]

/-- C2: `dirac_trace` vanishes on every flat word of an odd number of plain
gammas of the traced representation label (clifford.cpp lines 473-474), and
on every word that starts with gamma5 whose remaining length is odd or
equal to 2 (lines 427-428: total length even, or equal to 3), for all
dimensions and index assignments. -/
theorem c2_trace_vanishing {R : Type} [CommRing R]
    (gR : Varidx → Varidx → R) (epsR : Varidx → Varidx → Varidx → Varidx → R)
    (Iu trONE : R) (rl : ℕ) :
    (∀ (ixs : List Varidx), ixs.length % 2 = 1 →
      dirac_trace_word gR epsR Iu trONE rl
        (ixs.map (fun i => Ex.cliff (CliffKind.gam i) rl)) = 0) ∧
    (∀ (rest : List Ex), (rest.length % 2 = 1 ∨ rest.length = 2) →
      dirac_trace_word gR epsR Iu trONE rl
        (Ex.cliff CliffKind.gamma5 rl :: rest) = 0) := by
  constructor
  · intro ixs hpar
    rcases ixs with _ | ⟨i, tl⟩
    · simp at hpar
    · simp only [List.length_cons] at hpar
      simp only [dirac_trace_word, List.map_cons, word_tag, List.length_map,
        List.length_cons, List.getD_cons_zero, isG5, ne_eq]
      rw [if_neg (by simp), if_neg (show ¬(false = true) by simp), if_pos hpar]
  · intro rest h
    have hnum : (rest.length + 1) % 2 = 0 ∨ rest.length + 1 = 3 := by omega
    simp only [dirac_trace_word, word_tag, List.length_cons,
      List.getD_cons_zero, isG5, ne_eq]
    rw [if_neg (by simp), if_pos trivial, if_pos hnum]

/-- A nontrivial scalar interpretation of the metric over `ℤ`, for concrete
witnesses of the trace theorems. -/
def gZ (a b : Varidx) : ℤ := (varidxKey a + 2) * (varidxKey b + 3) + 1

/-- A nontrivial scalar interpretation of `eps0123` over `ℤ`, for concrete
witnesses of the trace theorems. -/
def epsZ (a b c d : Varidx) : ℤ :=
  varidxKey a + 2 * varidxKey b + 3 * varidxKey c + 5 * varidxKey d + 7

/-- The four concrete indices used by the trace witnesses. -/
def wIx (n : ℕ) : Varidx := ⟨IdxId.sym n, false, Dimn.sym 0⟩

/-- Witness for C1 at a concrete four-gamma word over `ℤ`. -/
theorem c1_trace_even_word_witness :
    ([wIx 0, wIx 1, wIx 2, wIx 3].length % 2 = 0 ∧
      4 ≤ [wIx 0, wIx 1, wIx 2, wIx 3].length) ∧
    dirac_trace_word gZ epsZ 11 4 0
      ([wIx 0, wIx 1, wIx 2, wIx 3].map (fun i => Ex.cliff (CliffKind.gam i) 0))
      = 4 * trace_spec gZ [wIx 0, wIx 1, wIx 2, wIx 3] :=
  ⟨⟨by decide, by decide⟩,
    (c1_trace_even_word gZ epsZ 11 4 0).1 [wIx 0, wIx 1, wIx 2, wIx 3]
      (by decide) (by decide)⟩

/-- Witness for C2 at a concrete one-gamma word and a concrete
gamma5-times-two-gammas word over `ℤ`. -/
theorem c2_trace_vanishing_witness :
    ([wIx 0].length % 2 = 1 ∧
      dirac_trace_word gZ epsZ 11 4 0
        ([wIx 0].map (fun i => Ex.cliff (CliffKind.gam i) 0)) = 0) ∧
    (([Ex.cliff (CliffKind.gam (wIx 1)) 0,
        Ex.cliff (CliffKind.gam (wIx 2)) 0].length % 2 = 1 ∨
      [Ex.cliff (CliffKind.gam (wIx 1)) 0,
        Ex.cliff (CliffKind.gam (wIx 2)) 0].length = 2) ∧
      dirac_trace_word gZ epsZ 11 4 0
        (Ex.cliff CliffKind.gamma5 0 :: [Ex.cliff (CliffKind.gam (wIx 1)) 0,
          Ex.cliff (CliffKind.gam (wIx 2)) 0]) = 0) :=
  ⟨⟨by decide, (c2_trace_vanishing gZ epsZ 11 4 0).1 [wIx 0] (by decide)⟩,
    ⟨Or.inr (by decide), (c2_trace_vanishing gZ epsZ 11 4 0).2
      [Ex.cliff (CliffKind.gam (wIx 1)) 0, Ex.cliff (CliffKind.gam (wIx 2)) 0]
      (Or.inr (by decide))⟩⟩

/-- An adjacent pair of gamma objects carrying equal indices: the redex of
the adjacent-merge rule of `simplify_ncmul`. -/
def adjEqGamma (a b : Ex) : Bool :=
  match a, b with
  | Ex.cliff (CliffKind.gam ia) _, Ex.cliff (CliffKind.gam ib) _ => ia = ib
  | _, _ => false

/-- No rewrite rule of `simplify_ncmul` fires on the word: it holds no
`diracone` factor, its gamma5s already form a prefix (no non-gamma5 factor
directly before a gamma5), it does not start with a gamma5 square, and it
has no adjacent equal-index gamma pair. -/
def noRuleFires (v : List Ex) : Prop :=
  (∀ e ∈ v, isOneE e = false) ∧
  (∀ i, i < v.length - 1 → isG5 (v.getD (i+1) default) = true →
    isG5 (v.getD i default) = true) ∧
  ¬(isG5 (v.getD 0 default) = true ∧ isG5 (v.getD 1 default) = true) ∧
  (∀ i, i < v.length - 1 →
    adjEqGamma (v.getD i default) (v.getD (i+1) default) = false)

theorem g5Step_noop (st : NState)
    (hb : ∀ i, i < st.s.length - 1 → isG5 (st.s.getD (i+1) default) = true →
      isG5 (st.s.getD i default) = true) (i : ℕ) :
    g5Step i st = st := by
  unfold g5Step
  by_cases hib : isG5 (st.s.getD (i+1) default) = true
  · have hi1 : i + 1 < st.s.length := by
      by_contra hge
      rw [List.getD_eq_default _ _ (by omega)] at hib
      exact absurd hib (by rw [show (default : Ex) = Ex.numE 0 from rfl]; simp [isG5])
    have hia := hb i (by omega) hib
    rw [if_neg (by simp [← List.getD_eq_getElem?_getD, hia])]
  · rw [if_neg (by simp [← List.getD_eq_getElem?_getD, hib])]

theorem g5Sweep_noop (st : NState)
    (hb : ∀ i, i < st.s.length - 1 → isG5 (st.s.getD (i+1) default) = true →
      isG5 (st.s.getD i default) = true) :
    ∀ n, g5Sweep n st = st := by
  intro n
  induction n with
  | zero => exact g5Step_noop st hb 0
  | succ n ih =>
    unfold g5Sweep
    rw [g5Step_noop st hb (n+1)]
    exact ih

theorem g5Bubble_noop (st : NState)
    (hb : ∀ i, i < st.s.length - 1 → isG5 (st.s.getD (i+1) default) = true →
      isG5 (st.s.getD i default) = true) :
    ∀ n, g5Bubble n st = st := by
  intro n
  induction n with
  | zero => exact g5Sweep_noop st hb 0
  | succ n ih =>
    unfold g5Bubble
    rw [g5Sweep_noop st hb (n+1)]
    exact ih

theorem dropG5Squares_noop (v : List Ex)
    (hc : ¬(isG5 (v.getD 0 default) = true ∧ isG5 (v.getD 1 default) = true)) :
    dropG5Squares v = (v, false) := by
  rcases v with _ | ⟨a, _ | ⟨b, rest⟩⟩
  · rfl
  · rfl
  · unfold dropG5Squares
    rw [if_neg]
    intro hab
    rw [Bool.and_eq_true] at hab
    exact hc ⟨hab.1, hab.2⟩

theorem mergeAdjacent_noop (rl : ℕ) : ∀ (v : List Ex),
    (∀ i, i < v.length - 1 →
      adjEqGamma (v.getD i default) (v.getD (i+1) default) = false) →
    mergeAdjacent rl v = (v, false) := by
  intro v
  induction v with
  | nil => intro _; rfl
  | cons a tail ih =>
    intro hd
    rcases tail with _ | ⟨b, rest⟩
    · rfl
    · have htail : mergeAdjacent rl (b :: rest) = (b :: rest, false) := by
        apply ih
        intro i hi
        have := hd (i+1) (by simp only [List.length_cons] at hi ⊢; omega)
        simpa using this
      have h0 := hd 0 (by simp)
      simp only [List.getD_cons_zero, List.getD_cons_succ] at h0
      rcases a with ⟨ka, rla⟩ | na | da | ⟨xa, ya⟩ | ⟨pa, qa⟩ | ⟨pa, qa⟩ | ⟨pa, qa⟩ <;>
        rcases b with ⟨kb, rlb⟩ | nb | db | ⟨xb, yb⟩ | ⟨pb, qb⟩ | ⟨pb, qb⟩ | ⟨pb, qb⟩ <;>
        first
          | (rcases ka with _ | ia | _ <;> rcases kb with _ | ib | _ <;>
              simp [adjEqGamma] at h0 <;>
              simp [mergeAdjacent, htail, h0])
          | simp [mergeAdjacent, htail]

/-- The Clifford word is already sorted by index order past a leading
gamma5: no adjacent pair (beyond the skipped gamma5) has its first index
comparing greater than its second. -/
def sortedAfterG5 (v : List Ex) : Prop :=
  ∀ k, k < v.length - 1 →
    ((if isG5 (v.getD 0 default) then 1 else 0) ≤ k →
      varidxKey (exIdx (v.getD k default)) ≤ varidxKey (exIdx (v.getD (k+1) default)))

theorem findSwapPos_none (v : List Ex) (h : sortedAfterG5 v) :
    findSwapPos v = none := by
  unfold findSwapPos
  rw [List.find?_eq_none]
  intro x hx
  rw [List.mem_range'] at hx
  obtain ⟨i, hi, hxi⟩ := hx
  simp only [decide_eq_true_eq]
  have hxlt : x < v.length - 1 := by omega
  have hxge : (if isG5 (v.getD 0 default) then 1 else 0) ≤ x := by
    rcases hxi with rfl
    split at hi <;> split <;> omega
  exact not_lt.mpr (h x hxlt hxge)

/-- C8: both normalization passes are the identity at their fixed points.
First, `simplify_ncmul` applied to a nonempty word on which none of its
rules fires (no `diracone`, gamma5s already in front, no leading gamma5
square, no adjacent equal-index gammas) returns exactly that word, with
sign +1 and `something_changed = false` (so the source returns it through
`simplified_ncmul` without re-evaluation).  Second, the per-word core of
`canonicalize_clifford` applied to a word already sorted by index order
(after an optional leading gamma5) finds no pair to swap and returns the
word unchanged with coefficient 1, for any remaining fuel reserve. -/
theorem c8_idempotence {R : Type} [CommRing R] (gR : Varidx → Varidx → R) :
    (∀ (rl : ℕ) (v : List Ex), v ≠ [] → noRuleFires v →
      simplify_ncmul rl v = (1, v, false)) ∧
    (∀ (fuel : ℕ) (v : List Ex), sortedAfterG5 v →
      canonicalize_word gR (fuel + 1) v = some [(1, v)]) := by
  constructor
  · intro rl v hne hnr
    obtain ⟨h1, h2, h3, h4⟩ := hnr
    have hfil : v.filter (fun e => !isOneE e) = v :=
      List.filter_eq_self.mpr (fun a ha => by simp [h1 a ha])
    have hb : g5Bubble (v.length - 2) ⟨v, 1, false⟩ = ⟨v, 1, false⟩ :=
      g5Bubble_noop ⟨v, 1, false⟩ h2 (v.length - 2)
    have hdr : dropG5Squares v = (v, false) := dropG5Squares_noop v h3
    have hme : mergeAdjacent rl v = (v, false) := mergeAdjacent_noop rl v h4
    have hlen : ¬(v.length = 0) := by simpa using hne
    simp only [simplify_ncmul, hfil, hb, hdr, hme, ite_self, Bool.or_false,
      if_neg hlen]
  · intro fuel v hs
    simp only [canonicalize_word, findSwapPos_none v hs]

instance noRuleFires_decidable (v : List Ex) : Decidable (noRuleFires v) := by
  unfold noRuleFires
  infer_instance

instance sortedAfterG5_decidable (v : List Ex) : Decidable (sortedAfterG5 v) := by
  unfold sortedAfterG5
  infer_instance

/-- A normal-form word `gamma5 · gamma(i1) · gamma(i2)` with sorted,
distinct indices: a fixed point of both normalization passes. -/
def c8word : List Ex :=
  [Ex.cliff CliffKind.gamma5 0, Ex.cliff (CliffKind.gam (wIx 1)) 0,
    Ex.cliff (CliffKind.gam (wIx 2)) 0]

/-- Witness for C8 at the concrete fixed-point word `c8word`. -/
theorem c8_idempotence_witness :
    (c8word ≠ [] ∧ noRuleFires c8word ∧
      simplify_ncmul 0 c8word = (1, c8word, false)) ∧
    (sortedAfterG5 c8word ∧
      canonicalize_word gZ (0 + 1) c8word = some [(1, c8word)]) :=
  ⟨⟨by decide, by decide,
      (c8_idempotence gZ).1 0 c8word (by decide) (by decide)⟩,
    ⟨by decide, (c8_idempotence gZ).2 0 c8word (by decide)⟩⟩

end GiNaC
